import Mathlib

/-!
Verification of the `Amount` fixed-point money type (`src/amount.rs`).

The Rust code stores a money amount as `as_int : u32` counting cents.
Construction goes through `f32`: the input string is parsed as an IEEE
binary32 float (panicking on parse failure), multiplied by `100.0`
(an IEEE correctly-rounded multiplication), rounded to the nearest
integer with ties away from zero (`f32::round`), and converted with a
saturating `as u32` cast (NaN and negative values give 0, values above
`u32::MAX` give `u32::MAX`).

The embedding below models binary32 exactly, using only `Nat`/`Int`
arithmetic so that every definition evaluates by kernel reduction:

* a parsed or computed float is `F32`: NaN, a signed infinity, or a
  signed finite value `m * 2^e` (`m : ℕ` mantissa, `e : ℤ` exponent);
* `roundPos n d` rounds the exact positive rational `n / d` to the
  nearest binary32 value (round-to-nearest, ties to even, with
  subnormals below `2^(-126)` and overflow to infinity), exactly as
  both Rust's `f32` string parser and its `f32` multiplication do;
* partial Rust operations (`panic`, `checked_div`/`unwrap`) are
  modelled with `Option`, `None` being the panicking outcome;
* `u32` wrap-around arithmetic carries an explicit `% 2^32`.

`F32.val` interprets an `F32` as the exact rational it denotes; it is
used only to state and prove properties, never to compute.
-/

set_option maxRecDepth 8000

/-- Floor of the base-2 logarithm, computed with structural fuel so that it
reduces in the kernel; `log2f f n` is correct whenever `n ≤ f`. -/
def log2f : ℕ → ℕ → ℕ
  | 0, _ => 0
  | f+1, n => if n ≤ 1 then 0 else log2f f (n / 2) + 1

/-- Floor of the base-2 logarithm of a positive natural number. -/
def nlog2 (n : ℕ) : ℕ := log2f n n

/-- Ceiling of the base-2 logarithm of a positive natural number. -/
def clog2n (m : ℕ) : ℕ := if m ≤ 1 then 0 else nlog2 (m - 1) + 1

/-- Floor of the base-2 logarithm of the positive rational `n / d`. -/
def rlog2 (n d : ℕ) : ℤ :=
  if d ≤ n then (nlog2 (n / d) : ℤ) else -(clog2n ((d + n - 1) / n) : ℤ)

/-- Round the rational `n / d` to the nearest natural number, ties to even
(the IEEE default rounding used by binary32 operations). -/
def rndNEn (n d : ℕ) : ℕ :=
  if 2 * (n % d) < d then n / d
  else if d < 2 * (n % d) then n / d + 1
  else if (n / d) % 2 = 0 then n / d else n / d + 1

/-- Multiply the rational `n / d` by `2^k`, returning a numerator/denominator pair. -/
def scaleB (n d : ℕ) (k : ℤ) : ℕ × ℕ :=
  if 0 ≤ k then (n * 2 ^ k.toNat, d) else (n, d * 2 ^ (-k).toNat)

/-- An IEEE binary32 value: NaN, a signed infinity, or a signed finite value
`(-1)^sign * m * 2^e` with `m : ℕ` and `e : ℤ`. -/
inductive F32 where
  | nan : F32
  | inf : Bool → F32
  | finite : Bool → ℕ → ℤ → F32
deriving DecidableEq

/-- Exact rational value of a finite `F32` (NaN and infinities are mapped to 0;
they are never interpreted numerically). Used only in specifications. -/
def F32.val : F32 → ℚ
  | .nan => 0
  | .inf _ => 0
  | .finite s m e => (if s then -1 else 1) * (m : ℚ) * (2 : ℚ) ^ e

/-- The largest finite binary32 value is `(2^24 - 1) * 2^104`; `roundPos`
overflows to infinity when the rounded result exceeds it. The comparison is
done on naturals after shifting by `2^149` (the smallest subnormal step). -/
def roundPos (n d : ℕ) : F32 :=
  let e : ℤ := max (rlog2 n d) (-126)
  let p := scaleB n d (23 - e)
  let m := rndNEn p.1 p.2
  if (2 ^ 24 - 1) * 2 ^ 253 < m * 2 ^ (e - 23 + 149).toNat then .inf false
  else .finite false m (e - 23)

/-- Round the exact rational `(-1)^neg * n / d` to the nearest binary32 value,
round-to-nearest ties-to-even. This is the rounding performed by Rust's `f32`
string parser (which is correctly rounded) and by `f32` multiplication. -/
def roundF32 (neg : Bool) (n d : ℕ) : F32 :=
  if n = 0 then .finite neg 0 0
  else
    match roundPos n d with
    | .inf _ => .inf neg
    | .finite _ m e => .finite neg m e
    | .nan => .nan

/-- The `f32` multiplication `x * 100.0` from `Amount::new_from_str`:
exact product, then correctly rounded back to binary32. -/
def f32MulHundred : F32 → F32
  | .nan => .nan
  | .inf s => .inf s
  | .finite s m e =>
      let p := scaleB (100 * m) 1 e
      roundF32 s p.1 p.2

/-- Rust's `f32::round`: round to the nearest integer, ties away from zero.
A finite result is returned with exponent 0, i.e. as an exact integer. -/
def f32RoundInt : F32 → F32
  | .nan => .nan
  | .inf s => .inf s
  | .finite s m e =>
      if 0 ≤ e then .finite s m e
      else .finite s ((2 * m + 2 ^ (-e).toNat) / 2 ^ ((-e).toNat + 1)) 0

/-- Rust's saturating `as u32` cast from `f32`: NaN and negative values give 0,
values whose truncation exceeds `u32::MAX` give `u32::MAX`, every other value
is truncated toward zero. -/
def f32ToU32 : F32 → ℕ
  | .nan => 0
  | .inf s => if s then 0 else 2 ^ 32 - 1
  | .finite s m e =>
      if s && m != 0 then 0
      else min (if 0 ≤ e then m * 2 ^ e.toNat else m / 2 ^ (-e).toNat) (2 ^ 32 - 1)

/-- Numeric value of a decimal digit character. -/
def digVal (c : Char) : ℕ := c.toNat - 48

/-- Value of a big-endian string of decimal digits. -/
def digitsVal (cs : List Char) : ℕ := cs.foldl (fun a c => 10 * a + digVal c) 0

/-- Split a character list at the first `'.'`, if any. -/
def splitDot : List Char → List Char × Option (List Char)
  | [] => ([], none)
  | c :: r =>
      if c = '.' then ([], some r)
      else ((splitDot r).1.cons c, (splitDot r).2)

/-- Split a character list at the first `'e'` or `'E'`, if any. -/
def splitExpCh : List Char → List Char × Option (List Char)
  | [] => ([], none)
  | c :: r =>
      if c = 'e' ∨ c = 'E' then ([], some r)
      else ((splitExpCh r).1.cons c, (splitExpCh r).2)

/-- Parse the mantissa part of a float literal, `Digit+ ('.' Digit*)?` or
`'.' Digit+` (Rust's `FromStr` grammar for `f32` after sign and exponent are
stripped). Returns the digit string's value and the number of fractional
digits. -/
def parseMant (cs : List Char) : Option (ℕ × ℕ) :=
  match splitDot cs with
  | (ip, none) =>
      if ip ≠ [] ∧ ip.all Char.isDigit then some (digitsVal ip, 0) else none
  | (ip, some fp) =>
      if (ip ++ fp) ≠ [] ∧ ip.all Char.isDigit ∧ fp.all Char.isDigit then
        some (digitsVal (ip ++ fp), fp.length)
      else none

/-- Parse an exponent part, `Sign? Digit+`. -/
def parseExp (cs : List Char) : Option ℤ :=
  match cs with
  | [] => none
  | c :: r =>
      if c = '+' then
        if r ≠ [] ∧ r.all Char.isDigit then some (digitsVal r : ℤ) else none
      else if c = '-' then
        if r ≠ [] ∧ r.all Char.isDigit then some (-(digitsVal r : ℤ)) else none
      else if cs.all Char.isDigit then some (digitsVal cs : ℤ)
      else none

/-- Multiply the natural number `n` by `10^k`, returning a
numerator/denominator pair. -/
def scale10 (n : ℕ) (k : ℤ) : ℕ × ℕ :=
  if 0 ≤ k then (n * 10 ^ k.toNat, 1) else (n, 10 ^ (-k).toNat)

/-- Parse an unsigned number literal (mantissa and optional exponent) into the
exact rational it denotes, as a numerator/denominator pair. -/
def parseNumAbs (cs : List Char) : Option (ℕ × ℕ) :=
  match splitExpCh cs with
  | (m, none) => (parseMant m).map fun p => (p.1, 10 ^ p.2)
  | (m, some ec) =>
      match parseMant m, parseExp ec with
      | some p, some ex => some (scale10 p.1 (ex - (p.2 : ℤ)))
      | _, _ => none

/-- Case-insensitive comparison of `c` against the lower/upper pair `a`, `b`. -/
def chrCI (c a b : Char) : Bool := c = a || c = b

/-- Recognize `"nf"` or `"nfinity"` case-insensitively. -/
def isInfRest : List Char → Bool
  | [n, f] => chrCI n 'n' 'N' && chrCI f 'f' 'F'
  | [n, f, i, n2, i2, t, y] =>
      chrCI n 'n' 'N' && chrCI f 'f' 'F' && chrCI i 'i' 'I' && chrCI n2 'n' 'N' &&
      chrCI i2 'i' 'I' && chrCI t 't' 'T' && chrCI y 'y' 'Y'
  | _ => false

/-- Recognize `"inf"` or `"infinity"` case-insensitively. -/
def isInfChars : List Char → Bool
  | c :: rest => chrCI c 'i' 'I' && isInfRest rest
  | [] => false

/-- Recognize `"an"` case-insensitively. -/
def isNanRest : List Char → Bool
  | [a, n] => chrCI a 'a' 'A' && chrCI n 'n' 'N'
  | _ => false

/-- Recognize `"nan"` case-insensitively. -/
def isNanChars : List Char → Bool
  | c :: rest => chrCI c 'n' 'N' && isNanRest rest
  | [] => false

/-- Strip an optional leading sign, returning whether it was `'-'`. -/
def stripSign (cs : List Char) : Bool × List Char :=
  match cs with
  | [] => (false, [])
  | c :: r => if c = '-' then (true, r) else if c = '+' then (false, cs.tail) else (false, cs)

/-- Rust's `"…".parse::<f32>()` on a character list: grammar
`Sign? ('inf' | 'infinity' | 'nan' | Number)` (special words case-insensitive),
`Number ::= Digit+ ('.' Digit*)? Exp? | '.' Digit+ Exp?`, `Exp ::= ('e'|'E')
Sign? Digit+`, the numeric value being correctly rounded to binary32. -/
def parseF32chars (cs : List Char) : Option F32 :=
  let sp := stripSign cs
  if isInfChars sp.2 then some (.inf sp.1)
  else if isNanChars sp.2 then some .nan
  else (parseNumAbs sp.2).map fun p => roundF32 sp.1 p.1 p.2

/-- Rust's `"…".parse::<f32>()`. `none` is a `ParseFloatError`. -/
def parseF32 (s : String) : Option F32 := parseF32chars s.toList

/-- The money type of `src/amount.rs`: a `u32` count of cents. -/
structure Amount where
  as_int : ℕ
deriving DecidableEq

/-- `Amount::new`: the zero amount. -/
def Amount.new : Amount := ⟨0⟩

/-- `Amount::new_from_str`: parse the input as an `f32` (panicking — `none` —
on parse failure), multiply by `100.0`, round to the nearest integer, and cast
to `u32` with Rust's saturating float-to-integer cast. -/
def Amount.new_from_str (s : String) : Option Amount :=
  (parseF32 s).map fun f => ⟨f32ToU32 (f32RoundInt (f32MulHundred f))⟩

/-- `impl AddAssign for Amount`: `self.as_int += other.as_int` on `u32`
(wrap-around made explicit by `% 2^32`). -/
def Amount.add_assign (a b : Amount) : Amount := ⟨(a.as_int + b.as_int) % 2 ^ 32⟩

/-- `impl MulAssign<u32> for Amount`: `self.as_int *= multiplier` on `u32`
(wrap-around made explicit by `% 2^32`). -/
def Amount.mul_assign (a : Amount) (m : ℕ) : Amount := ⟨(a.as_int * m) % 2 ^ 32⟩

/-- `u32::checked_div`: `none` exactly when the divisor is zero. -/
def checked_div (a b : ℕ) : Option ℕ := if b = 0 then none else some (a / b)

/-- `u32::checked_rem`: `none` exactly when the divisor is zero. -/
def checked_rem (a b : ℕ) : Option ℕ := if b = 0 then none else some (a % b)

/-- Decimal digits of `n` (most significant first), with structural fuel;
correct whenever `n ≤ f`. -/
def natDigsAux : ℕ → ℕ → List Char
  | 0, _ => []
  | f+1, n => if n = 0 then [] else natDigsAux f (n / 10) ++ [Char.ofNat (48 + n % 10)]

/-- Decimal rendering of a natural number, as Rust's `{}` formats a `u32`. -/
def natRepr (n : ℕ) : String := if n = 0 then "0" else String.mk (natDigsAux n n)

/-- `impl Display for Amount`: `write!(f, "{}.{}", as_int.checked_div(100).unwrap(),
as_int.checked_rem(100).unwrap())`. The `unwrap` panics — `none` — if either
checked operation fails. No zero-padding is applied to the remainder. -/
def Amount.render (a : Amount) : Option String :=
  match checked_div a.as_int 100, checked_rem a.as_int 100 with
  | some q, some r => some (natRepr q ++ "." ++ natRepr r)
  | _, _ => none

/-- Data fed to the hasher by the derived `Hash` instance of `Amount`: exactly
the field `as_int`. Two amounts feed identical data to any hasher iff these
lists agree. -/
def Amount.hashFeed (a : Amount) : List ℕ := [a.as_int]

/-- A plain decimal string with at most two fractional digits:
`Digit+ ('.' Digit{0,2})?` or `'.' Digit{1,2}`. -/
def isValidDec2 (cs : List Char) : Bool :=
  match splitDot cs with
  | (ip, none) => !ip.isEmpty && ip.all Char.isDigit
  | (ip, some fp) =>
      !(ip ++ fp).isEmpty && ip.all Char.isDigit && fp.all Char.isDigit &&
      decide (fp.length ≤ 2)

/-- The exact number of cents denoted by a valid decimal string with at most
two fractional digits. -/
def dec2Cents (cs : List Char) : ℕ :=
  match splitDot cs with
  | (ip, none) => 100 * digitsVal ip
  | (ip, some fp) => digitsVal (ip ++ fp) * 10 ^ (2 - fp.length)

/-! ### Base-2 logarithm lemmas -/

theorem log2f_spec : ∀ f n, 1 ≤ n → n ≤ f → 2 ^ log2f f n ≤ n ∧ n < 2 ^ (log2f f n + 1) := by
  intro f
  induction f with
  | zero => intro n h1 h2; omega
  | succ f ih =>
    intro n h1 h2
    by_cases h : n ≤ 1
    · have hn : n = 1 := by omega
      subst hn
      simp [log2f]
    · have hrec : log2f (f + 1) n = log2f f (n / 2) + 1 := by
        simp [log2f, h]
      have hh := ih (n / 2) (by omega) (by omega)
      rw [hrec, pow_succ, pow_succ]
      rw [pow_succ] at hh
      omega

theorem nlog2_spec (n : ℕ) (h : 1 ≤ n) : 2 ^ nlog2 n ≤ n ∧ n < 2 ^ (nlog2 n + 1) :=
  log2f_spec n n h le_rfl

/-! ### Rounding to nearest (ties to even) error bound -/

theorem rndNEn_err (n d : ℕ) (hd : 1 ≤ d) :
    |((rndNEn n d : ℕ) : ℚ) - (n : ℚ) / d| ≤ 1 / 2 := by
  have hd0 : (0 : ℚ) < d := by exact_mod_cast hd
  have hmlt : n % d < d := Nat.mod_lt _ (by omega)
  have hmod : d * (n / d) + n % d = n := Nat.div_add_mod n d
  have hnq : (n : ℚ) / d = (n / d : ℕ) + (n % d : ℕ) / d := by
    have h1 : ((n / d : ℕ) : ℚ) = (d : ℚ) * (n / d : ℕ) / d := by
      rw [mul_comm, mul_div_assoc, div_self (ne_of_gt hd0), mul_one]
    rw [h1, div_add_div_same]
    congr 1
    exact_mod_cast hmod.symm
  have hF0 : (0 : ℚ) ≤ ((n % d : ℕ) : ℚ) / d := by positivity
  unfold rndNEn
  split_ifs with h1 h2 h3
  · have hFle : ((n % d : ℕ) : ℚ) / d ≤ 1 / 2 := by
      rw [div_le_div_iff hd0 (by norm_num : (0:ℚ) < 2)]
      exact_mod_cast (by omega : (n % d) * 2 ≤ 1 * d)
    rw [hnq, abs_le]
    constructor <;> linarith
  · have hFge : (1 : ℚ) / 2 ≤ ((n % d : ℕ) : ℚ) / d := by
      rw [div_le_div_iff (by norm_num : (0:ℚ) < 2) hd0]
      exact_mod_cast (by omega : 1 * d ≤ (n % d) * 2)
    have hFlt : ((n % d : ℕ) : ℚ) / d < 1 := by
      rw [div_lt_one hd0]
      exact_mod_cast hmlt
    rw [hnq, abs_le]
    push_cast
    constructor <;> linarith
  · have hFeq : ((n % d : ℕ) : ℚ) / d = 1 / 2 := by
      rw [div_eq_div_iff (ne_of_gt hd0) (by norm_num : (2:ℚ) ≠ 0)]
      exact_mod_cast (by omega : (n % d) * 2 = 1 * d)
    rw [hnq, abs_le]
    constructor <;> linarith
  · have hFeq : ((n % d : ℕ) : ℚ) / d = 1 / 2 := by
      rw [div_eq_div_iff (ne_of_gt hd0) (by norm_num : (2:ℚ) ≠ 0)]
      exact_mod_cast (by omega : (n % d) * 2 = 1 * d)
    rw [hnq, abs_le]
    push_cast
    constructor <;> linarith

/-! ### Scaling by powers of two -/

theorem scaleB_den_pos (n d : ℕ) (k : ℤ) (hd : 1 ≤ d) : 1 ≤ (scaleB n d k).2 := by
  unfold scaleB
  split_ifs
  · exact hd
  · have h2 : 0 < 2 ^ (-k).toNat := Nat.pos_pow_of_pos _ (by omega)
    exact Nat.mul_pos (by omega : 0 < d) h2

theorem scaleB_fst_pos (n d : ℕ) (k : ℤ) (hn : 1 ≤ n) : 1 ≤ (scaleB n d k).1 := by
  unfold scaleB
  split_ifs
  · have h2 : 0 < 2 ^ k.toNat := Nat.pos_pow_of_pos _ (by omega)
    exact Nat.mul_pos (by omega : 0 < n) h2
  · exact hn

theorem scaleB_val (n d : ℕ) (k : ℤ) (hd : 1 ≤ d) :
    ((scaleB n d k).1 : ℚ) / ((scaleB n d k).2 : ℚ) = (n : ℚ) / d * (2:ℚ) ^ k := by
  have hd0 : (0:ℚ) < d := by exact_mod_cast hd
  unfold scaleB
  split_ifs with h
  · push_cast
    rw [← zpow_natCast (2:ℚ) k.toNat, Int.toNat_of_nonneg h]
    rw [mul_comm ((n:ℚ)/d) _, ← mul_div_assoc, mul_comm]
  · have hk2 : k = -(((-k).toNat : ℕ) : ℤ) := by omega
    push_cast
    conv_rhs => rw [hk2, zpow_neg, zpow_natCast, ← div_eq_mul_inv, div_div]

/-! ### Correctness of the rational base-2 logarithm -/

theorem rlog2_spec (n d : ℕ) (hn : 1 ≤ n) (hd : 1 ≤ d) :
    (2:ℚ) ^ rlog2 n d ≤ (n : ℚ) / d ∧ (n : ℚ) / d < (2:ℚ) ^ (rlog2 n d + 1) := by
  have hd0 : (0:ℚ) < d := by exact_mod_cast hd
  have hn0 : (0:ℚ) < n := by exact_mod_cast hn
  unfold rlog2
  split_ifs with hdn
  · obtain ⟨hL, hU⟩ := nlog2_spec (n / d) ((Nat.one_le_div_iff (by omega)).2 hdn)
    constructor
    · rw [zpow_natCast]
      calc ((2:ℚ) ^ nlog2 (n / d)) ≤ ((n / d : ℕ) : ℚ) := by exact_mod_cast hL
        _ ≤ (n : ℚ) / d := Nat.cast_div_le
    · have hmod : d * (n / d) + n % d = n := Nat.div_add_mod n d
      have hmlt : n % d < d := Nat.mod_lt _ (by omega)
      have key : n < d * (n / d) + d := by omega
      have h1 : (n : ℚ) / d < ((n / d : ℕ) : ℚ) + 1 := by
        rw [div_lt_iff hd0, add_mul, one_mul, mul_comm]
        exact_mod_cast key
      have h2 : ((n / d : ℕ) : ℚ) + 1 ≤ (2:ℚ) ^ (nlog2 (n / d) + 1) := by
        exact_mod_cast hU
      have h3 : ((nlog2 (n / d) : ℤ) + 1) = ((nlog2 (n / d) + 1 : ℕ) : ℤ) := by push_cast; ring
      rw [h3, zpow_natCast]
      calc (n:ℚ)/d < ((n / d : ℕ) : ℚ) + 1 := h1
        _ ≤ _ := h2
  · set m := (d + n - 1) / n with hm
    have hnd : n < d := by omega
    have hm2 : 2 ≤ m := by
      rw [hm, Nat.le_div_iff_mul_le (by omega : 0 < n)]
      omega
    have hk : clog2n m = nlog2 (m - 1) + 1 := by
      unfold clog2n
      rw [if_neg (by omega)]
    obtain ⟨hL2, hU2⟩ := nlog2_spec (m - 1) (by omega)
    set L := nlog2 (m - 1) with hLdef
    -- `d ≤ n * m` and `n * (m - 1) < d`
    have hmod : n * ((d + n - 1) / n) + (d + n - 1) % n = d + n - 1 :=
      Nat.div_add_mod _ n
    have hmlt : (d + n - 1) % n < n := Nat.mod_lt _ (by omega)
    have hdm : d ≤ n * m := by rw [hm]; omega
    have hmul : n * m = n * (m - 1) + n := by
      have hm1 : m - 1 + 1 = m := by omega
      rw [← hm1, Nat.mul_succ, hm1]
    have hdm2 : n * (m - 1) < d := by
      have hle : n * m ≤ d + n - 1 := by
        rw [hm, mul_comm]
        exact Nat.div_mul_le_self _ n
      omega
    have hm2k : m ≤ 2 ^ (L + 1) := by omega
    rw [hk]
    constructor
    · rw [zpow_neg, zpow_natCast, inv_eq_one_div,
        div_le_div_iff (by positivity : (0:ℚ) < (2:ℚ) ^ (L + 1)) hd0]
      have hnat : 1 * d ≤ n * 2 ^ (L + 1) :=
        le_trans (by omega) (Nat.mul_le_mul_left n hm2k)
      exact_mod_cast hnat
    · have hgoal : (n : ℚ) / d < (2:ℚ) ^ (-(L:ℤ)) := by
        rw [zpow_neg, zpow_natCast, inv_eq_one_div,
          div_lt_div_iff hd0 (by positivity : (0:ℚ) < (2:ℚ) ^ L)]
        have hnat : n * 2 ^ L < 1 * d :=
          lt_of_le_of_lt (Nat.mul_le_mul_left n hL2) (by omega)
        exact_mod_cast hnat
      have heq : (-(((L:ℕ) + 1 : ℕ) : ℤ) + 1) = -(L:ℤ) := by push_cast; ring
      rw [heq]
      exact hgoal


/-! ### Correct rounding of a positive rational to binary32 -/

theorem roundPos_spec (n d : ℕ) (hn : 1 ≤ n) (hd : 1 ≤ d)
    (hlo : (2:ℚ) ^ (-126 : ℤ) ≤ (n:ℚ)/d) (hhi : (n:ℚ)/d < (2:ℚ) ^ (30 : ℤ)) :
    ∃ m : ℕ, roundPos n d = .finite false m (rlog2 n d - 23) ∧
      |(m:ℚ) * (2:ℚ) ^ (rlog2 n d - 23) - (n:ℚ)/d| ≤ (2:ℚ) ^ (rlog2 n d - 24) := by
  obtain ⟨hL, hU⟩ := rlog2_spec n d hn hd
  set e := rlog2 n d with he
  have he_lo : (-126 : ℤ) ≤ e := by
    by_contra hc
    push_neg at hc
    have hlt : (n:ℚ)/d < (2:ℚ) ^ (-126 : ℤ) :=
      lt_of_lt_of_le hU (zpow_le_zpow_right₀ (by norm_num) (by omega))
    linarith
  have he_hi : e ≤ 29 := by
    by_contra hc
    push_neg at hc
    have hge : (2:ℚ) ^ (30:ℤ) ≤ (2:ℚ) ^ e := zpow_le_zpow_right₀ (by norm_num) (by omega)
    linarith
  have hmax : max e (-126) = e := max_eq_left he_lo
  set p := scaleB n d (23 - e) with hp
  have hp2 : 1 ≤ p.2 := scaleB_den_pos n d _ hd
  have hpval : (p.1 : ℚ) / p.2 = (n:ℚ)/d * (2:ℚ) ^ (23 - e) := scaleB_val n d _ hd
  set m := rndNEn p.1 p.2 with hm
  have herr := rndNEn_err p.1 p.2 hp2
  rw [hpval] at herr
  have hepos : (0:ℚ) < (2:ℚ) ^ (e - 23) := zpow_pos (by norm_num) _
  have hscpos : (0:ℚ) < (2:ℚ) ^ (23 - e) := zpow_pos (by norm_num) _
  have hcancel : (2:ℚ) ^ (23 - e) * (2:ℚ) ^ (e - 23) = 1 := by
    rw [← zpow_add₀ (by norm_num : (2:ℚ) ≠ 0)]
    norm_num
  have herr2 : |(m:ℚ) * (2:ℚ) ^ (e - 23) - (n:ℚ)/d| ≤ (2:ℚ) ^ (e - 24) := by
    have h1 : (m:ℚ) * (2:ℚ) ^ (e - 23) - (n:ℚ)/d
        = ((m:ℚ) - (n:ℚ)/d * (2:ℚ) ^ (23 - e)) * (2:ℚ) ^ (e - 23) := by
      rw [sub_mul, mul_assoc, hcancel, mul_one]
    rw [h1, abs_mul, abs_of_pos hepos]
    calc |(m:ℚ) - (n:ℚ)/d * (2:ℚ)^(23 - e)| * (2:ℚ)^(e - 23)
        ≤ (1/2) * (2:ℚ)^(e - 23) := mul_le_mul_of_nonneg_right herr (le_of_lt hepos)
      _ = (2:ℚ) ^ (e - 24) := by
          rw [show (1/2 : ℚ) = (2:ℚ) ^ (-1 : ℤ) by norm_num,
            ← zpow_add₀ (by norm_num : (2:ℚ) ≠ 0)]
          congr 1
          ring
  have hm24 : m ≤ 2 ^ 24 := by
    have h1 : (m:ℚ) - (n:ℚ)/d * (2:ℚ)^(23-e) ≤ 1/2 := (abs_le.1 herr).2
    have h2 : (n:ℚ)/d * (2:ℚ)^(23-e) < (2:ℚ)^(e+1) * (2:ℚ)^(23-e) :=
      mul_lt_mul_of_pos_right hU hscpos
    have h3 : (2:ℚ)^(e+1) * (2:ℚ)^(23-e) = (2:ℚ)^(24:ℤ) := by
      rw [← zpow_add₀ (by norm_num : (2:ℚ) ≠ 0)]
      congr 1
      ring
    have h4 : (m:ℚ) < ((2^24 + 1 : ℕ) : ℚ) := by
      have h24 : (2:ℚ)^(24:ℤ) + 1 = ((2^24 + 1 : ℕ) : ℚ) := by push_cast; norm_num
      rw [← h24]
      calc (m:ℚ) ≤ (n:ℚ)/d * (2:ℚ)^(23-e) + 1/2 := by linarith
        _ < (2:ℚ)^(24:ℤ) + 1 := by linarith [h2, h3.le, h3.ge]
    have : m < 2^24 + 1 := by exact_mod_cast h4
    omega
  have hofl : ¬ ((2^24 - 1) * 2^253 < m * 2 ^ ((e - 23 + 149).toNat)) := by
    push_neg
    have htn : (e - 23 + 149).toNat ≤ 155 := by omega
    calc m * 2 ^ (e - 23 + 149).toNat
        ≤ 2^24 * 2^155 := Nat.mul_le_mul hm24 (Nat.pow_le_pow_right (by omega) htn)
      _ ≤ (2^24 - 1) * 2^253 := by norm_num
  refine ⟨m, ?_, herr2⟩
  simp only [roundPos]
  rw [← he, hmax, ← hp, ← hm, if_neg hofl]


/-! ### The rounding pipeline `parse → * 100.0 → round → as u32` -/

theorem roundF32_pos_spec (n d : ℕ) (hn : 1 ≤ n) (hd : 1 ≤ d)
    (hlo : (2:ℚ) ^ (-126 : ℤ) ≤ (n:ℚ)/d) (hhi : (n:ℚ)/d < (2:ℚ) ^ (30 : ℤ)) :
    ∃ m : ℕ, roundF32 false n d = .finite false m (rlog2 n d - 23) ∧
      |(m:ℚ) * (2:ℚ) ^ (rlog2 n d - 23) - (n:ℚ)/d| ≤ (2:ℚ) ^ (rlog2 n d - 24) := by
  obtain ⟨m, hr, herr⟩ := roundPos_spec n d hn hd hlo hhi
  refine ⟨m, ?_, herr⟩
  unfold roundF32
  rw [if_neg (by omega : ¬ n = 0), hr]

theorem roundHalfAway_eq (m k c : ℕ) (hk : 1 ≤ k)
    (h : |(m:ℚ) / (2^k : ℚ) - (c:ℚ)| < 1/2) : (2*m + 2^k) / 2^(k+1) = c := by
  have hp : (0:ℚ) < (2:ℚ)^k := by positivity
  have hp1 : (0:ℚ) < (2:ℚ)^(k+1) := by positivity
  obtain ⟨h1, h2⟩ := abs_lt.1 h
  have hpow : (2:ℚ)^(k+1) = 2^k * 2 := pow_succ 2 k
  have hdiv : (m:ℚ)/2^k * (2:ℚ)^(k+1) = 2*m := by
    field_simp
    ring
  have hA : (c:ℚ) * 2^(k+1) < 2*(m:ℚ) + 2^k := by
    have h1' : (c:ℚ) - (m:ℚ)/2^k < 1/2 := by linarith
    have hmul := mul_lt_mul_of_pos_right h1' hp1
    rw [sub_mul, hdiv] at hmul
    rw [hpow] at hmul
    rw [hpow]
    linarith
  have hB : 2*(m:ℚ) + 2^k < ((c:ℚ)+1) * 2^(k+1) := by
    have h2' : (m:ℚ)/2^k - (c:ℚ) < 1/2 := h2
    have hmul := mul_lt_mul_of_pos_right h2' hp1
    rw [sub_mul, hdiv] at hmul
    rw [hpow] at hmul
    rw [hpow]
    linarith
  have hAn : c * 2^(k+1) ≤ 2*m + 2^k := by
    have : c * 2^(k+1) < 2*m + 2^k := by exact_mod_cast hA
    omega
  have hBn : 2*m + 2^k < (c+1) * 2^(k+1) := by exact_mod_cast hB
  exact Nat.div_eq_of_lt_le hAn hBn

theorem f32ToU32_int (c : ℕ) (hc : c < 2^32) : f32ToU32 (.finite false c 0) = c := by
  simp only [f32ToU32]
  norm_num
  omega

theorem f32RoundInt_near (m2 : ℕ) (e2 : ℤ) (c : ℕ) (he : e2 < 0)
    (h : |(m2:ℚ) * (2:ℚ)^e2 - (c:ℚ)| < 1/2) :
    f32RoundInt (.finite false m2 e2) = .finite false c 0 := by
  have hk : 1 ≤ (-e2).toNat := by omega
  have hval : (m2:ℚ) * (2:ℚ)^e2 = (m2:ℚ) / 2^((-e2).toNat) := by
    have he2 : e2 = -(((-e2).toNat : ℕ) : ℤ) := by omega
    conv_lhs => rw [he2, zpow_neg, zpow_natCast, ← div_eq_mul_inv]
  rw [hval] at h
  simp only [f32RoundInt]
  rw [if_neg (by omega : ¬ (0:ℤ) ≤ e2)]
  congr 1
  exact roundHalfAway_eq m2 _ c hk h

theorem f32MulHundred_finite (s : Bool) (m : ℕ) (e : ℤ) :
    f32MulHundred (.finite s m e) =
      roundF32 s (scaleB (100 * m) 1 e).1 (scaleB (100 * m) 1 e).2 := by
  simp only [f32MulHundred]

theorem pipeline_exact (n d c : ℕ) (hd : 1 ≤ d)
    (hq : (n:ℚ)/d = (c:ℚ)/100) (hc1 : 1 ≤ c) (hc2 : c < 6553600) :
    f32ToU32 (f32RoundInt (f32MulHundred (roundF32 false n d))) = c := by
  have hd0 : (0:ℚ) < d := by exact_mod_cast hd
  have hc0 : (1:ℚ) ≤ (c:ℚ) := by exact_mod_cast hc1
  have hq0 : (0:ℚ) < (n:ℚ)/d := by rw [hq]; positivity
  have hn : 1 ≤ n := by
    by_contra hcon
    push_neg at hcon
    have hz : n = 0 := by omega
    rw [hz] at hq0
    simp at hq0
  have h100q : 100 * ((n:ℚ)/d) = (c:ℚ) := by rw [hq]; field_simp
  have hq100 : (1:ℚ)/100 ≤ (n:ℚ)/d := by
    rw [hq, div_le_div_iff (by norm_num : (0:ℚ) < 100) (by norm_num : (0:ℚ) < 100)]
    linarith
  have hql : (2:ℚ)^(-126:ℤ) ≤ (n:ℚ)/d := by
    calc (2:ℚ)^(-126:ℤ) ≤ 1/100 := by norm_num
      _ ≤ (n:ℚ)/d := hq100
  have hq16 : (n:ℚ)/d < (2:ℚ)^(16:ℤ) := by
    rw [hq, div_lt_iff (by norm_num : (0:ℚ) < 100)]
    calc (c:ℚ) < 6553600 := by exact_mod_cast hc2
      _ ≤ (2:ℚ)^(16:ℤ) * 100 := by norm_num
  have hqh : (n:ℚ)/d < (2:ℚ)^(30:ℤ) :=
    lt_of_lt_of_le hq16 (zpow_le_zpow_right₀ (by norm_num) (by omega))
  obtain ⟨hL1, hU1⟩ := rlog2_spec n d hn hd
  set e1 := rlog2 n d with he1
  obtain ⟨m1, hr1, herr1⟩ := roundF32_pos_spec n d hn hd hql hqh
  have he1_hi : e1 ≤ 15 := by
    by_contra hcon
    push_neg at hcon
    have : (2:ℚ)^(16:ℤ) ≤ (2:ℚ)^e1 := zpow_le_zpow_right₀ (by norm_num) (by omega)
    linarith
  have he1_lo : -7 ≤ e1 := by
    by_contra hcon
    push_neg at hcon
    have hlt : (n:ℚ)/d < (2:ℚ)^(-7:ℤ) :=
      lt_of_lt_of_le hU1 (zpow_le_zpow_right₀ (by norm_num) (by omega))
    have h7 : ((2:ℚ)^(-7:ℤ)) = 1/128 := by norm_num
    rw [h7] at hlt
    linarith
  have herr1' : |(m1:ℚ) * (2:ℚ)^(e1-23) - (n:ℚ)/d| ≤ (2:ℚ)^(-9:ℤ) :=
    le_trans herr1 (zpow_le_zpow_right₀ (by norm_num) (by omega))
  have h9 : ((2:ℚ)^(-9:ℤ)) = 1/512 := by norm_num
  rw [h9] at herr1'
  obtain ⟨ha1, hb1⟩ := abs_le.1 herr1'
  have hval1_pos : (0:ℚ) < (m1:ℚ) * (2:ℚ)^(e1-23) := by
    have hqe : (2:ℚ)^(-7:ℤ) ≤ (n:ℚ)/d := by
      calc (2:ℚ)^(-7:ℤ) = 1/128 := by norm_num
        _ ≤ 1/100 := by norm_num
        _ ≤ (n:ℚ)/d := hq100
    have : (1:ℚ)/128 - 1/512 > 0 := by norm_num
    have h7 : ((2:ℚ)^(-7:ℤ)) = 1/128 := by norm_num
    rw [h7] at hqe
    linarith
  have hm1 : 1 ≤ m1 := by
    by_contra hcon
    push_neg at hcon
    have hz : m1 = 0 := by omega
    rw [hz] at hval1_pos
    simp at hval1_pos
  -- the multiplication by 100
  set p2 := scaleB (100 * m1) 1 (e1 - 23) with hp2
  have hn2 : 1 ≤ p2.1 := scaleB_fst_pos _ 1 _ (by omega)
  have hd2 : 1 ≤ p2.2 := scaleB_den_pos _ 1 _ (by omega)
  have hq2val : (p2.1 : ℚ) / p2.2 = 100 * ((m1:ℚ) * (2:ℚ)^(e1-23)) := by
    rw [hp2, scaleB_val _ 1 _ (by omega)]
    push_cast
    ring
  have hq2_lo : (2:ℚ)^(-126:ℤ) ≤ (p2.1 : ℚ) / p2.2 := by
    rw [hq2val]
    have h126 : (2:ℚ)^(-126:ℤ) ≤ 1/2 := by norm_num
    have hhalf : (1:ℚ)/2 ≤ 100 * ((m1:ℚ) * (2:ℚ)^(e1-23)) := by
      linarith [h100q, hc0, ha1]
    exact le_trans h126 hhalf
  have hq2_hi : (p2.1 : ℚ) / p2.2 < (2:ℚ)^(23:ℤ) := by
    rw [hq2val]
    have hcq : (c:ℚ) < 6553600 := by exact_mod_cast hc2
    have h23 : ((2:ℚ)^(23:ℤ)) = 8388608 := by norm_num
    rw [h23]
    linarith [h100q, hb1, hcq]
  have hq2_hi30 : (p2.1 : ℚ) / p2.2 < (2:ℚ)^(30:ℤ) := by
    have : ((2:ℚ)^(23:ℤ)) ≤ (2:ℚ)^(30:ℤ) := zpow_le_zpow_right₀ (by norm_num) (by omega)
    linarith
  obtain ⟨hL2, hU2⟩ := rlog2_spec p2.1 p2.2 hn2 hd2
  set e2 := rlog2 p2.1 p2.2 with he2
  obtain ⟨m2, hr2, herr2⟩ := roundF32_pos_spec p2.1 p2.2 hn2 hd2 hq2_lo hq2_hi30
  have he2_hi : e2 ≤ 22 := by
    by_contra hcon
    push_neg at hcon
    have : (2:ℚ)^(23:ℤ) ≤ (2:ℚ)^e2 := zpow_le_zpow_right₀ (by norm_num) (by omega)
    linarith
  have herr2' : |(m2:ℚ) * (2:ℚ)^(e2-23) - (p2.1:ℚ)/p2.2| ≤ (2:ℚ)^(-2:ℤ) :=
    le_trans herr2 (zpow_le_zpow_right₀ (by norm_num) (by omega))
  have h2q : ((2:ℚ)^(-2:ℤ)) = 1/4 := by norm_num
  rw [h2q, hq2val] at herr2'
  obtain ⟨ha2, hb2⟩ := abs_le.1 herr2'
  -- total error below one half
  have htot : |(m2:ℚ) * (2:ℚ)^(e2-23) - (c:ℚ)| < 1/2 := by
    rw [abs_lt]
    constructor <;> linarith [h100q, ha1, hb1, ha2, hb2]
  -- assemble the chain
  rw [hr1]
  rw [f32MulHundred_finite, ← hp2, hr2,
    f32RoundInt_near m2 (e2 - 23) c (by omega) htot]
  exact f32ToU32_int c (by omega)


/-! ### Parsing of plain decimal strings -/

theorem splitDot_decomp : ∀ cs : List Char,
    (∀ ip, splitDot cs = (ip, none) → cs = ip) ∧
    (∀ ip fp, splitDot cs = (ip, some fp) → cs = ip ++ '.' :: fp) := by
  intro cs
  induction cs with
  | nil =>
    constructor
    · intro ip h
      simp [splitDot] at h
      exact h.symm
    · intro ip fp h
      simp [splitDot] at h
  | cons c r ih =>
    constructor
    · intro ip h
      by_cases hc : c = '.'
      · simp [splitDot, hc] at h
      · simp only [splitDot, if_neg hc, Prod.mk.injEq] at h
        obtain ⟨h1, h2⟩ := h
        have hr : splitDot r = ((splitDot r).1, none) := by rw [← h2]
        have hrec := ih.1 (splitDot r).1 hr
        rw [← h1, List.cons_eq_cons]
        exact ⟨rfl, hrec⟩
    · intro ip fp h
      by_cases hc : c = '.'
      · simp only [splitDot, if_pos hc, Prod.mk.injEq] at h
        obtain ⟨h1, h2⟩ := h
        injection h2 with h2
        subst hc
        rw [← h1, List.nil_append, h2]
      · simp only [splitDot, if_neg hc, Prod.mk.injEq] at h
        obtain ⟨h1, h2⟩ := h
        have hr : splitDot r = ((splitDot r).1, some fp) := by rw [← h2]
        have hrec := ih.2 (splitDot r).1 fp hr
        rw [← h1, List.cons_append, List.cons_eq_cons]
        exact ⟨rfl, hrec⟩

theorem digit_not_special (c : Char) (h : c.isDigit = true) :
    c ≠ '.' ∧ c ≠ 'e' ∧ c ≠ 'E' ∧ c ≠ '+' ∧ c ≠ '-' ∧
    c ≠ 'i' ∧ c ≠ 'I' ∧ c ≠ 'n' ∧ c ≠ 'N' := by
  refine ⟨?_, ?_, ?_, ?_, ?_, ?_, ?_, ?_, ?_⟩ <;> (rintro rfl; revert h; decide)

theorem splitExpCh_id (cs : List Char) (h : ∀ c ∈ cs, c ≠ 'e' ∧ c ≠ 'E') :
    splitExpCh cs = (cs, none) := by
  induction cs with
  | nil => rfl
  | cons c r ih =>
    have hc := h c (by simp)
    have hr := ih fun x hx => h x (by simp [hx])
    simp only [splitExpCh, if_neg (by tauto : ¬(c = 'e' ∨ c = 'E')), hr]

theorem head_not_special (c0 : Char) (rest : List Char)
    (hc0 : c0.isDigit = true ∨ c0 = '.') :
    stripSign (c0 :: rest) = (false, c0 :: rest) ∧
    isInfChars (c0 :: rest) = false ∧ isNanChars (c0 :: rest) = false := by
  rcases hc0 with hd | hdot
  · have hns := digit_not_special c0 hd
    refine ⟨?_, ?_, ?_⟩
    · show (if c0 = '-' then ((true : Bool), rest)
        else if c0 = '+' then ((false : Bool), (c0 :: rest).tail)
        else ((false : Bool), c0 :: rest)) = ((false : Bool), c0 :: rest)
      rw [if_neg hns.2.2.2.2.1, if_neg hns.2.2.2.1]
    · show (chrCI c0 'i' 'I' && isInfRest rest) = false
      unfold chrCI
      simp [hns.2.2.2.2.2.1, hns.2.2.2.2.2.2.1]
    · show (chrCI c0 'n' 'N' && isNanRest rest) = false
      unfold chrCI
      simp [hns.2.2.2.2.2.2.2.1, hns.2.2.2.2.2.2.2.2]
  · subst hdot
    refine ⟨?_, ?_, ?_⟩
    · show (if '.' = '-' then ((true : Bool), rest)
        else if '.' = '+' then ((false : Bool), ('.' :: rest).tail)
        else ((false : Bool), '.' :: rest)) = ((false : Bool), '.' :: rest)
      rw [if_neg (by decide : ¬('.' = '-')), if_neg (by decide : ¬('.' = '+'))]
    · show (chrCI '.' 'i' 'I' && isInfRest rest) = false
      simp [chrCI]
    · show (chrCI '.' 'n' 'N' && isNanRest rest) = false
      simp [chrCI]

theorem parseF32chars_validDec2 (cs : List Char) (h : isValidDec2 cs = true) :
    ∃ dv fl : ℕ,
      parseF32chars cs = some (roundF32 false dv (10 ^ fl)) ∧
      1 ≤ 10 ^ fl ∧
      ((dv : ℚ) / ((10 ^ fl : ℕ) : ℚ)) = ((dec2Cents cs : ℕ) : ℚ) / 100 := by
  rcases hsp : splitDot cs with ⟨ip, fpo⟩
  cases fpo with
  | none =>
    have hval := h
    unfold isValidDec2 at hval
    rw [hsp] at hval
    simp only [Bool.and_eq_true, Bool.not_eq_true'] at hval
    obtain ⟨h1, h2⟩ := hval
    have hne : ip ≠ [] := by intro hnil; rw [hnil] at h1; simp at h1
    have hcs := (splitDot_decomp cs).1 ip hsp
    have hdig : ∀ c ∈ cs, c.isDigit = true := by
      rw [hcs]
      exact List.all_eq_true.1 h2
    have hm : parseMant cs = some (digitsVal ip, 0) := by
      unfold parseMant
      rw [hsp]
      show (if ip ≠ [] ∧ ip.all Char.isDigit = true then some (digitsVal ip, 0)
        else none) = some (digitsVal ip, 0)
      rw [if_pos ⟨hne, h2⟩]
    have hse : splitExpCh cs = (cs, none) :=
      splitExpCh_id cs fun c hc => by
        have := digit_not_special c (hdig c hc)
        tauto
    have hpa : parseNumAbs cs = some (digitsVal ip, 10 ^ 0) := by
      unfold parseNumAbs
      rw [hse]
      show Option.map (fun p => (p.1, 10 ^ p.2)) (parseMant cs) = some (digitsVal ip, 10 ^ 0)
      rw [hm]
      rfl
    obtain ⟨c0, rest, hcons⟩ : ∃ c0 rest, cs = c0 :: rest := by
      cases hh : cs with
      | nil =>
        rw [hh] at hcs
        exact absurd hcs.symm hne
      | cons a b => exact ⟨a, b, rfl⟩
    have hhead := head_not_special c0 rest (Or.inl (hdig c0 (by rw [hcons]; simp)))
    rw [← hcons] at hhead
    refine ⟨digitsVal ip, 0, ?_, by norm_num, ?_⟩
    · simp only [parseF32chars, hhead.1, hhead.2.1, hhead.2.2, Bool.false_eq_true,
        if_false, hpa, Option.map_some']
    · have hdc : dec2Cents cs = 100 * digitsVal ip := by
        unfold dec2Cents
        rw [hsp]
      rw [hdc]
      push_cast
      norm_num
  | some fp =>
    have hval := h
    unfold isValidDec2 at hval
    rw [hsp] at hval
    simp only [Bool.and_eq_true, Bool.not_eq_true', decide_eq_true_eq] at hval
    obtain ⟨⟨⟨h1, h2⟩, h3⟩, h4⟩ := hval
    have hne : ip ++ fp ≠ [] := by intro hnil; rw [hnil] at h1; simp at h1
    have hcs := (splitDot_decomp cs).2 ip fp hsp
    have hdig : ∀ c ∈ cs, c.isDigit = true ∨ c = '.' := by
      rw [hcs]
      intro c hc
      rcases List.mem_append.1 hc with hin | hin
      · exact Or.inl (List.all_eq_true.1 h2 c hin)
      · rcases List.mem_cons.1 hin with hdot | hin
        · exact Or.inr hdot
        · exact Or.inl (List.all_eq_true.1 h3 c hin)
    have hm : parseMant cs = some (digitsVal (ip ++ fp), fp.length) := by
      unfold parseMant
      rw [hsp]
      show (if ip ++ fp ≠ [] ∧ ip.all Char.isDigit = true ∧ fp.all Char.isDigit = true then
        some (digitsVal (ip ++ fp), fp.length) else none) = some (digitsVal (ip ++ fp), fp.length)
      rw [if_pos ⟨hne, h2, h3⟩]
    have hse : splitExpCh cs = (cs, none) :=
      splitExpCh_id cs fun c hc => by
        rcases hdig c hc with hd | hdot
        · have := digit_not_special c hd
          tauto
        · subst hdot
          exact ⟨by decide, by decide⟩
    have hpa : parseNumAbs cs = some (digitsVal (ip ++ fp), 10 ^ fp.length) := by
      unfold parseNumAbs
      rw [hse]
      show Option.map (fun p => (p.1, 10 ^ p.2)) (parseMant cs)
        = some (digitsVal (ip ++ fp), 10 ^ fp.length)
      rw [hm]
      rfl
    obtain ⟨c0, rest, hcons⟩ : ∃ c0 rest, cs = c0 :: rest := by
      cases hh : cs with
      | nil =>
        rw [hh] at hcs
        cases ip with
        | nil => simp at hcs
        | cons x xs => simp at hcs
      | cons a b => exact ⟨a, b, rfl⟩
    have hhead := head_not_special c0 rest (hdig c0 (by rw [hcons]; simp))
    rw [← hcons] at hhead
    refine ⟨digitsVal (ip ++ fp), fp.length, ?_, Nat.one_le_pow _ _ (by omega), ?_⟩
    · simp only [parseF32chars, hhead.1, hhead.2.1, hhead.2.2, Bool.false_eq_true,
        if_false, hpa, Option.map_some']
    · have hdc : dec2Cents cs = digitsVal (ip ++ fp) * 10 ^ (2 - fp.length) := by
        unfold dec2Cents
        rw [hsp]
      rw [hdc, div_eq_div_iff (by positivity : ((10 ^ fp.length : ℕ) : ℚ) ≠ 0)
        (by norm_num : (100:ℚ) ≠ 0)]
      push_cast
      rw [mul_assoc, ← pow_add, Nat.sub_add_cancel h4]
      norm_num

theorem pipeline_zero (d : ℕ) :
    f32ToU32 (f32RoundInt (f32MulHundred (roundF32 false 0 d))) = 0 := by
  have h1 : roundF32 false 0 d = .finite false 0 0 := by
    unfold roundF32
    rw [if_pos rfl]
  rw [h1]
  rfl

theorem new_from_str_validDec2 (cs : List Char) (h : isValidDec2 cs = true)
    (hc : dec2Cents cs < 6553600) :
    Amount.new_from_str (String.mk cs) = some ⟨dec2Cents cs⟩ := by
  obtain ⟨dv, fl, hparse, hd1, hqeq⟩ := parseF32chars_validDec2 cs h
  unfold Amount.new_from_str parseF32
  have htl : (String.mk cs).toList = cs := rfl
  rw [htl, hparse, Option.map_some']
  by_cases hzero : dec2Cents cs = 0
  · have h100 : (dv:ℚ) * 100 = ((dec2Cents cs : ℕ):ℚ) * ((10^fl : ℕ) : ℚ) := by
      rw [div_eq_div_iff (by positivity : ((10 ^ fl : ℕ) : ℚ) ≠ 0)
        (by norm_num : (100:ℚ) ≠ 0)] at hqeq
      exact hqeq
    rw [hzero] at h100
    simp only [Nat.cast_zero, zero_mul] at h100
    have hdv : dv = 0 := by
      have hq0 : (dv:ℚ) = 0 := by linarith
      exact_mod_cast hq0
    rw [hdv, hzero]
    exact congrArg some (congrArg Amount.mk (pipeline_zero _))
  · exact congrArg some (congrArg Amount.mk
      (pipeline_exact dv (10 ^ fl) (dec2Cents cs) hd1 hqeq (by omega) hc))


/-! ### Decimal rendering -/

theorem digitsVal_from (cs : List Char) :
    ∀ acc : ℕ, cs.foldl (fun a c => 10 * a + digVal c) acc
      = acc * 10 ^ cs.length + digitsVal cs := by
  induction cs with
  | nil => intro acc; simp [digitsVal]
  | cons c r ih =>
    intro acc
    simp only [List.foldl_cons, List.length_cons]
    rw [ih (10 * acc + digVal c)]
    have hdv : digitsVal (c :: r) = (10 * 0 + digVal c) * 10 ^ r.length + digitsVal r := by
      unfold digitsVal
      simp only [List.foldl_cons]
      exact ih _
    rw [hdv]
    ring

theorem digitsVal_append (a b : List Char) :
    digitsVal (a ++ b) = digitsVal a * 10 ^ b.length + digitsVal b := by
  unfold digitsVal
  rw [List.foldl_append]
  exact digitsVal_from b _

theorem digitsVal_singleton (c : Char) : digitsVal [c] = digVal c := by
  unfold digitsVal
  simp

theorem natDigsAux_zero (f : ℕ) : natDigsAux f 0 = [] := by
  cases f <;> simp [natDigsAux]

theorem natDigsAux_val : ∀ f n, n ≤ f → digitsVal (natDigsAux f n) = n := by
  intro f
  induction f with
  | zero =>
    intro n h
    have hz : n = 0 := by omega
    subst hz
    simp [natDigsAux, digitsVal]
  | succ f ih =>
    intro n h
    by_cases hz : n = 0
    · subst hz
      simp [natDigsAux, digitsVal]
    · have hstep : natDigsAux (f+1) n = natDigsAux f (n / 10) ++ [Char.ofNat (48 + n % 10)] := by
        simp [natDigsAux, hz]
      rw [hstep, digitsVal_append, ih _ (by omega), digitsVal_singleton]
      have hdig : ∀ r < 10, digVal (Char.ofNat (48 + r)) = r := by decide
      rw [hdig _ (Nat.mod_lt _ (by omega))]
      simp only [List.length_cons, List.length_nil]
      omega

theorem natDigsAux_small (f m : ℕ) (h1 : 1 ≤ m) (h9 : m ≤ 9) (hf : m ≤ f) :
    natDigsAux f m = [Char.ofNat (48 + m)] := by
  cases f with
  | zero => omega
  | succ f' =>
    have hm0 : ¬ m = 0 := by omega
    have hstep : natDigsAux (f'+1) m = natDigsAux f' (m / 10) ++ [Char.ofNat (48 + m % 10)] := by
      simp [natDigsAux, hm0]
    rw [hstep, (by omega : m / 10 = 0), natDigsAux_zero, (by omega : m % 10 = m)]
    rfl

theorem natDigsAux_two (f r : ℕ) (h1 : 10 ≤ r) (h9 : r ≤ 99) (hf : r ≤ f) :
    natDigsAux f r = [Char.ofNat (48 + r / 10), Char.ofNat (48 + r % 10)] := by
  cases f with
  | zero => omega
  | succ f' =>
    have hr0 : ¬ r = 0 := by omega
    have hstep : natDigsAux (f'+1) r = natDigsAux f' (r / 10) ++ [Char.ofNat (48 + r % 10)] := by
      simp [natDigsAux, hr0]
    rw [hstep, natDigsAux_small f' (r / 10) (by omega) (by omega) (by omega)]
    rfl

theorem natDigsAux_digits : ∀ f n, ∀ c ∈ natDigsAux f n, c.isDigit = true := by
  intro f
  induction f with
  | zero => intro n c hc; simp [natDigsAux] at hc
  | succ f ih =>
    intro n c hc
    by_cases hz : n = 0
    · subst hz
      simp [natDigsAux] at hc
    · have hstep : natDigsAux (f+1) n = natDigsAux f (n / 10) ++ [Char.ofNat (48 + n % 10)] := by
        simp [natDigsAux, hz]
      rw [hstep] at hc
      rcases List.mem_append.1 hc with hin | hin
      · exact ih _ c hin
      · have hceq : c = Char.ofNat (48 + n % 10) := by simpa using hin
        subst hceq
        have hb : n % 10 < 10 := Nat.mod_lt _ (by omega)
        have hall : ∀ r < 10, (Char.ofNat (48 + r)).isDigit = true := by decide
        exact hall _ hb

theorem natRepr_small (r : ℕ) (h : r ≤ 9) : (natRepr r).toList = [Char.ofNat (48 + r)] := by
  unfold natRepr
  by_cases hz : r = 0
  · subst hz
    rw [if_pos rfl]
    rfl
  · rw [if_neg hz]
    show natDigsAux r r = _
    exact natDigsAux_small r r (by omega) h le_rfl

theorem natRepr_two (r : ℕ) (h1 : 10 ≤ r) (h2 : r ≤ 99) :
    (natRepr r).toList = [Char.ofNat (48 + r / 10), Char.ofNat (48 + r % 10)] := by
  unfold natRepr
  rw [if_neg (by omega : ¬ r = 0)]
  show natDigsAux r r = _
  exact natDigsAux_two r r h1 h2 le_rfl

theorem natRepr_val (n : ℕ) : digitsVal ((natRepr n).toList) = n := by
  unfold natRepr
  by_cases hz : n = 0
  · subst hz
    rw [if_pos rfl]
    decide
  · rw [if_neg hz]
    show digitsVal (natDigsAux n n) = n
    exact natDigsAux_val n n le_rfl

theorem natRepr_digits (n : ℕ) : ∀ c ∈ (natRepr n).toList, c.isDigit = true := by
  unfold natRepr
  by_cases hz : n = 0
  · subst hz
    rw [if_pos rfl]
    decide
  · rw [if_neg hz]
    show ∀ c ∈ natDigsAux n n, c.isDigit = true
    exact natDigsAux_digits n n

theorem render_eq (a : Amount) :
    a.render = some (natRepr (a.as_int / 100) ++ "." ++ natRepr (a.as_int % 100)) := by
  unfold Amount.render checked_div checked_rem
  norm_num

theorem splitDot_append_dot (a b : List Char) (h : ∀ c ∈ a, c ≠ '.') :
    splitDot (a ++ '.' :: b) = (a, some b) := by
  induction a with
  | nil => simp [splitDot]
  | cons c r ih =>
    have hc := h c (by simp)
    have hr := ih fun x hx => h x (by simp [hx])
    simp only [List.cons_append, splitDot, if_neg hc, List.append_eq, hr]


theorem rendered_toList (w r : ℕ) :
    (natRepr w ++ "." ++ natRepr r).toList
      = (natRepr w).toList ++ '.' :: (natRepr r).toList := by
  show ((natRepr w ++ "." ++ natRepr r)).data = _
  rw [String.data_append, String.data_append]
  rw [List.append_assoc]
  rfl

theorem rendered_dec2 (w r : ℕ) (hr : r ≤ 99) :
    isValidDec2 ((natRepr w ++ "." ++ natRepr r).toList) = true ∧
    dec2Cents ((natRepr w ++ "." ++ natRepr r).toList) =
      (if 10 ≤ r then 100 * w + r else 100 * w + 10 * r) := by
  have hwl := natRepr_digits w
  have hdot : ∀ c ∈ (natRepr w).toList, c ≠ '.' := fun c hc =>
    (digit_not_special c (hwl c hc)).1
  have hsd : splitDot ((natRepr w).toList ++ '.' :: (natRepr r).toList)
      = ((natRepr w).toList, some ((natRepr r).toList)) := splitDot_append_dot _ _ hdot
  have hA : ((natRepr w).toList.all Char.isDigit) = true := List.all_eq_true.2 (natRepr_digits w)
  have hB : ((natRepr r).toList.all Char.isDigit) = true := List.all_eq_true.2 (natRepr_digits r)
  rw [rendered_toList]
  by_cases h10 : 10 ≤ r
  · have hrl := natRepr_two r h10 hr
    have hlen : (natRepr r).toList.length = 2 := by rw [hrl]; rfl
    constructor
    · unfold isValidDec2
      rw [hsd]
      show (!((natRepr w).toList ++ (natRepr r).toList).isEmpty &&
        (natRepr w).toList.all Char.isDigit && (natRepr r).toList.all Char.isDigit &&
        decide ((natRepr r).toList.length ≤ 2)) = true
      rw [hA, hB, hlen]
      rw [hrl]
      simp
    · unfold dec2Cents
      rw [hsd]
      show digitsVal ((natRepr w).toList ++ (natRepr r).toList)
        * 10 ^ (2 - (natRepr r).toList.length) = _
      rw [digitsVal_append, natRepr_val, natRepr_val, hlen, if_pos h10]
      norm_num [mul_comm]
  · have hrl := natRepr_small r (by omega)
    have hlen : (natRepr r).toList.length = 1 := by rw [hrl]; rfl
    constructor
    · unfold isValidDec2
      rw [hsd]
      show (!((natRepr w).toList ++ (natRepr r).toList).isEmpty &&
        (natRepr w).toList.all Char.isDigit && (natRepr r).toList.all Char.isDigit &&
        decide ((natRepr r).toList.length ≤ 2)) = true
      rw [hA, hB, hlen]
      rw [hrl]
      simp
    · unfold dec2Cents
      rw [hsd]
      show digitsVal ((natRepr w).toList ++ (natRepr r).toList)
        * 10 ^ (2 - (natRepr r).toList.length) = _
      rw [digitsVal_append, natRepr_val, natRepr_val, hlen, if_neg h10]
      ring


/-! ### Saturation behaviour of the cast -/

theorem roundPos_shape (n d : ℕ) :
    roundPos n d = .inf false ∨ ∃ m e, roundPos n d = .finite false m e := by
  simp only [roundPos]
  split_ifs
  · exact Or.inl rfl
  · exact Or.inr ⟨_, _, rfl⟩

theorem roundF32_true_shape (n d : ℕ) :
    roundF32 true n d = .inf true ∨ ∃ m e, roundF32 true n d = .finite true m e := by
  unfold roundF32
  by_cases hz : n = 0
  · rw [if_pos hz]
    exact Or.inr ⟨0, 0, rfl⟩
  · rw [if_neg hz]
    rcases roundPos_shape n d with h | ⟨m, e, h⟩ <;> rw [h]
    · exact Or.inl rfl
    · exact Or.inr ⟨m, e, rfl⟩

theorem f32ToU32_negSign (m : ℕ) (e : ℤ) : f32ToU32 (.finite true m e) = 0 := by
  by_cases hm : m = 0
  · subst hm
    simp [f32ToU32]
  · simp [f32ToU32, hm]

theorem pipeline_neg (m : ℕ) (e : ℤ) :
    f32ToU32 (f32RoundInt (f32MulHundred (.finite true m e))) = 0 := by
  rw [show f32MulHundred (.finite true m e)
      = roundF32 true (scaleB (100*m) 1 e).1 (scaleB (100*m) 1 e).2 from by
    simp only [f32MulHundred]]
  rcases roundF32_true_shape (scaleB (100*m) 1 e).1 (scaleB (100*m) 1 e).2
    with h | ⟨m', e', h⟩ <;> rw [h]
  · rfl
  · by_cases he : (0:ℤ) ≤ e'
    · rw [show f32RoundInt (.finite true m' e') = .finite true m' e' from by
        simp only [f32RoundInt]
        rw [if_pos he]]
      exact f32ToU32_negSign _ _
    · rw [show f32RoundInt (.finite true m' e')
          = .finite true ((2*m' + 2^(-e').toNat) / 2^((-e').toNat + 1)) 0 from by
        simp only [f32RoundInt]
        rw [if_neg he]]
      exact f32ToU32_negSign _ _

theorem f32ToU32_big (m k : ℕ) (h : 2^32 - 1 ≤ m * 2^k) :
    f32ToU32 (.finite false m (k : ℤ)) = 2^32 - 1 := by
  have htn : ((k:ℤ)).toNat = k := by omega
  have hnn : (0:ℤ) ≤ (k:ℤ) := by omega
  show (if false && (m != 0) then 0
    else min (if (0:ℤ) ≤ (k:ℤ) then m * 2 ^ ((k:ℤ)).toNat else m / 2 ^ (-(k:ℤ)).toNat)
      (2^32 - 1)) = 2^32 - 1
  rw [Bool.false_and, if_neg (by simp), if_pos hnn, htn]
  exact Nat.min_eq_right h


/-! ### The claims -/

/-- C1, counterexample: the claim says `new_from_str` fails on a negative
value, but the code parses `"-1.5"` to the negative float `-1.5` (here
`-12582912 * 2^(-23)`) and then the saturating `as u32` cast turns it into
the amount `0` — no failure occurs. -/
theorem amount_c1_counterexample :
    parseF32 "-1.5" = some (F32.finite true 12582912 (-23)) ∧
    F32.val (F32.finite true 12582912 (-23)) < 0 ∧
    Amount.new_from_str "-1.5" = some ⟨0⟩ ∧ Amount.new_from_str "-1.5" ≠ none := by
  refine ⟨by decide, ?_, by decide, by decide⟩
  have hpos : (0:ℚ) < (12582912:ℚ) * (2:ℚ) ^ (-23:ℤ) := by positivity
  have hval : F32.val (F32.finite true 12582912 (-23))
      = -((12582912:ℚ) * (2:ℚ) ^ (-23:ℤ)) := by
    simp only [F32.val]
    norm_num
  rw [hval]
  linarith

/-- C1, amended: `new_from_str` fails (panics) exactly when the input does not
parse as an `f32`; for every input that parses — negative values and values
whose scaling overflows `u32` included — it returns an `Amount`, because the
`as u32` cast saturates instead of failing (`"-1.5" ↦ 0`,
`"1e38" ↦ u32::MAX`). -/
theorem amount_c1_amended :
    (∀ s : String, (Amount.new_from_str s).isNone = true ↔ (parseF32 s).isNone = true) ∧
    Amount.new_from_str "asda" = none ∧
    Amount.new_from_str "-1.5" = some ⟨0⟩ ∧
    Amount.new_from_str "1e38" = some ⟨4294967295⟩ := by
  refine ⟨?_, by decide, by decide, by decide⟩
  intro s
  unfold Amount.new_from_str
  cases parseF32 s <;> simp

/-- C1, witness: the amended equivalence applied to the concrete failing
input `"asda"`. -/
theorem amount_c1_witness :
    (Amount.new_from_str "asda").isNone = true ↔ (parseF32 "asda").isNone = true :=
  amount_c1_amended.1 "asda"

/-- C2, counterexample: `"131072.01"` is a valid decimal string with two
fractional digits worth 13107201 cents, but the float pipeline produces
13107202 cents, which renders as `"131072.2"` — the round trip fails by a
full cent, not merely by zero-padding. -/
theorem amount_c2_counterexample :
    isValidDec2 ("131072.01".toList) = true ∧
    dec2Cents ("131072.01".toList) = 13107201 ∧
    Amount.new_from_str "131072.01" = some ⟨13107202⟩ ∧
    Amount.new_from_str "131072.01" ≠ some ⟨13107201⟩ ∧
    Amount.render ⟨13107202⟩ = some "131072.2" := by
  refine ⟨by decide, by decide, by decide, by decide, by decide⟩

/-- C2, amended: for every valid decimal string with at most two fractional
digits whose value is below 65536 units (65536.00, i.e. 6553600 cents), the
constructor recovers the exact cent count, and rendering that amount
round-trips to the same cents whenever the remainder has two digits; when the
remainder is a single digit the rendered string re-reads with the fractional
digit shifted into the tens place — exactly the zero-padding defect.  Above
that bound the `f32` pipeline can lose whole cents (see the counterexample). -/
theorem amount_c2_amended (cs : List Char) (hv : isValidDec2 cs = true)
    (hc : dec2Cents cs < 6553600) :
    Amount.new_from_str (String.mk cs) = some ⟨dec2Cents cs⟩ ∧
    Amount.render ⟨dec2Cents cs⟩
      = some (natRepr (dec2Cents cs / 100) ++ "." ++ natRepr (dec2Cents cs % 100)) ∧
    (10 ≤ dec2Cents cs % 100 →
      dec2Cents ((natRepr (dec2Cents cs / 100) ++ "." ++ natRepr (dec2Cents cs % 100)).toList)
        = dec2Cents cs) ∧
    (dec2Cents cs % 100 < 10 →
      dec2Cents ((natRepr (dec2Cents cs / 100) ++ "." ++ natRepr (dec2Cents cs % 100)).toList)
        = 100 * (dec2Cents cs / 100) + 10 * (dec2Cents cs % 100)) := by
  refine ⟨new_from_str_validDec2 cs hv hc, render_eq _, ?_, ?_⟩
  · intro h10
    have hd := (rendered_dec2 (dec2Cents cs / 100) (dec2Cents cs % 100) (by omega)).2
    rw [if_pos h10] at hd
    rw [hd]
    omega
  · intro h10
    have hd := (rendered_dec2 (dec2Cents cs / 100) (dec2Cents cs % 100) (by omega)).2
    rw [if_neg (by omega)] at hd
    rw [hd]

/-- C2, witness: the amended round trip at the concrete input `"1.25"`. -/
theorem amount_c2_witness :
    Amount.new_from_str (String.mk ("1.25".toList)) = some ⟨125⟩ ∧
    (10 ≤ (125:ℕ) % 100 →
      dec2Cents ((natRepr (125 / 100) ++ "." ++ natRepr (125 % 100)).toList) = 125) := by
  have h := amount_c2_amended ("1.25".toList) (by decide) (by decide)
  exact ⟨h.1, h.2.2.1⟩

/-- C3: rendering produces `"<whole>.<fraction>"` with `whole = cents / 100`
and `fraction = cents % 100`, never zero-padding the fraction; in particular
`cents = 4401` renders as `"44.1"`, not `"44.01"`. -/
theorem amount_c3_render :
    (∀ a : Amount, a.render
      = some (natRepr (a.as_int / 100) ++ "." ++ natRepr (a.as_int % 100))) ∧
    Amount.render ⟨4401⟩ = some "44.1" ∧
    Amount.render ⟨4401⟩ ≠ some "44.01" ∧
    Amount.render ⟨4412⟩ = some "44.12" :=
  ⟨render_eq, by decide, by decide, by decide⟩

/-- C4: when the cent counts sum without overflowing `u32`, `add_assign`
(`accumulate`) stores exactly the integer sum — no precision loss. -/
theorem amount_c4_accumulate (a b : Amount) (h : a.as_int + b.as_int < 2^32) :
    (a.add_assign b).as_int = a.as_int + b.as_int := by
  simp only [Amount.add_assign]
  exact Nat.mod_eq_of_lt h

/-- C4, witness: `44.12 + 45.80 = 89.92` in cents, the unit test of the
source file. -/
theorem amount_c4_witness :
    (⟨4412⟩ : Amount).as_int + (⟨4580⟩ : Amount).as_int < 2^32 ∧
    ((⟨4412⟩ : Amount).add_assign ⟨4580⟩).as_int = 8992 := by
  refine ⟨by decide, ?_⟩
  rw [amount_c4_accumulate ⟨4412⟩ ⟨4580⟩ (by decide)]
  decide

/-- C5: `mul_assign` (`scale`) stores exactly `cents * multiplier` when the
product fits in `u32`; `scale 0` always yields the zero amount and `scale 1`
is the identity on every in-range amount. -/
theorem amount_c5_scale :
    (∀ (a : Amount) (m : ℕ), a.as_int * m < 2^32 → (a.mul_assign m).as_int = a.as_int * m) ∧
    (∀ a : Amount, a.mul_assign 0 = Amount.new) ∧
    (∀ a : Amount, a.as_int < 2^32 → a.mul_assign 1 = a) := by
  refine ⟨?_, ?_, ?_⟩
  · intro a m h
    simp only [Amount.mul_assign]
    exact Nat.mod_eq_of_lt h
  · intro a
    simp [Amount.mul_assign, Amount.new]
  · intro a h
    simp only [Amount.mul_assign, mul_one]
    rw [Nat.mod_eq_of_lt h]

/-- C5, witness: scaling `44.12` by 10 and by 0, and the identity at 1. -/
theorem amount_c5_witness :
    (⟨4412⟩ : Amount).as_int * 10 < 2^32 ∧
    ((⟨4412⟩ : Amount).mul_assign 10).as_int = 44120 ∧
    (⟨4412⟩ : Amount).mul_assign 0 = Amount.new ∧
    (⟨4412⟩ : Amount).mul_assign 1 = ⟨4412⟩ := by
  refine ⟨by decide, ?_, amount_c5_scale.2.1 ⟨4412⟩, amount_c5_scale.2.2 ⟨4412⟩ (by decide)⟩
  rw [amount_c5_scale.1 ⟨4412⟩ 10 (by decide)]
  decide

/-- C6: over non-overflowing cent counts, `accumulate` is associative and
commutative: `(a ⊕ b) ⊕ c = a ⊕ (b ⊕ c)` and `a ⊕ b = b ⊕ a`. -/
theorem amount_c6_accumulate_comm_assoc :
    (∀ a b c : Amount, a.as_int + b.as_int + c.as_int < 2^32 →
      (a.add_assign b).add_assign c = a.add_assign (b.add_assign c)) ∧
    (∀ a b : Amount, a.as_int + b.as_int < 2^32 →
      a.add_assign b = b.add_assign a) := by
  constructor
  · intro a b c h
    simp only [Amount.add_assign, Amount.mk.injEq]
    omega
  · intro a b h
    simp only [Amount.add_assign, Amount.mk.injEq]
    omega

/-- C6, witness: associativity and commutativity at concrete cent counts. -/
theorem amount_c6_witness :
    ((⟨100⟩ : Amount).add_assign ⟨250⟩).add_assign ⟨49⟩
      = (⟨100⟩ : Amount).add_assign ((⟨250⟩ : Amount).add_assign ⟨49⟩) ∧
    (⟨100⟩ : Amount).add_assign ⟨250⟩ = (⟨250⟩ : Amount).add_assign ⟨100⟩ :=
  ⟨amount_c6_accumulate_comm_assoc.1 ⟨100⟩ ⟨250⟩ ⟨49⟩ (by decide),
    amount_c6_accumulate_comm_assoc.2 ⟨100⟩ ⟨250⟩ (by decide)⟩

/-- C7: equality is structural on `as_int` alone, the derived hash feeds
exactly `as_int` to the hasher (so equal cent counts hash identically), and
`"1.50"` and `"1.5"` both construct `cents = 150`, hence equal and
identically-hashed amounts. -/
theorem amount_c7_eq_hash :
    (∀ a b : Amount, a = b ↔ a.as_int = b.as_int) ∧
    (∀ a b : Amount, a.as_int = b.as_int → a.hashFeed = b.hashFeed) ∧
    Amount.new_from_str "1.50" = some ⟨150⟩ ∧
    Amount.new_from_str "1.5" = some ⟨150⟩ := by
  refine ⟨?_, ?_, by decide, by decide⟩
  · intro a b
    obtain ⟨x⟩ := a
    obtain ⟨y⟩ := b
    simp
  · intro a b h
    unfold Amount.hashFeed
    rw [h]

/-- C7, witness: the structural-equality equivalence and hash agreement at
the two amounts built from `"1.50"` and `"1.5"`. -/
theorem amount_c7_witness :
    ((⟨150⟩ : Amount) = ⟨150⟩ ↔ (⟨150⟩ : Amount).as_int = (⟨150⟩ : Amount).as_int) ∧
    (⟨150⟩ : Amount).hashFeed = (⟨150⟩ : Amount).hashFeed :=
  ⟨amount_c7_eq_hash.1 ⟨150⟩ ⟨150⟩, amount_c7_eq_hash.2.1 ⟨150⟩ ⟨150⟩ rfl⟩

/-- C8: `new_from_str "44.12"` yields `cents = 4412`, and it does so by the
algorithm of the source: parse to the nearest `f32`
(`11565793 * 2^(-18) ≈ 44.120003`), multiply by `100.0` with `f32` rounding
(`9035776 * 2^(-11) = 4412.0`), round to the nearest integer (`4412`), and
cast to `u32`. -/
theorem amount_c8_concrete :
    Amount.new_from_str "44.12" = some ⟨4412⟩ ∧
    parseF32 "44.12" = some (F32.finite false 11565793 (-18)) ∧
    f32MulHundred (F32.finite false 11565793 (-18)) = F32.finite false 9035776 (-11) ∧
    f32RoundInt (F32.finite false 9035776 (-11)) = F32.finite false 4412 0 ∧
    f32ToU32 (F32.finite false 4412 0) = 4412 := by
  refine ⟨by decide, by decide, by decide, by decide, by decide⟩

/-- C9: construction succeeds for every string the float parser accepts — the
panic branch is reached only on parse failure; NaN and negative parses give
`cents = 0` and a positive-infinity parse gives `cents = u32::MAX`, because
the `as u32` cast saturates (negative or NaN to 0, at or above the maximum to
`2^32 - 1`), as witnessed concretely by `"NaN"`, `"-1.5"` and `"inf"`. -/
theorem amount_c9_saturation :
    (∀ (s : String) (f : F32), parseF32 s = some f → (Amount.new_from_str s).isSome = true) ∧
    (∀ s : String, parseF32 s = some F32.nan → Amount.new_from_str s = some ⟨0⟩) ∧
    (∀ (s : String) (m : ℕ) (e : ℤ), parseF32 s = some (F32.finite true m e) →
      Amount.new_from_str s = some ⟨0⟩) ∧
    (∀ s : String, parseF32 s = some (F32.inf false) →
      Amount.new_from_str s = some ⟨2^32 - 1⟩) ∧
    (∀ (m : ℕ) (e : ℤ), f32ToU32 (F32.finite true m e) = 0) ∧
    f32ToU32 F32.nan = 0 ∧
    f32ToU32 (F32.inf false) = 2^32 - 1 ∧
    (∀ m k : ℕ, 2^32 - 1 ≤ m * 2^k → f32ToU32 (F32.finite false m (k : ℤ)) = 2^32 - 1) ∧
    Amount.new_from_str "NaN" = some ⟨0⟩ ∧
    Amount.new_from_str "-1.5" = some ⟨0⟩ ∧
    Amount.new_from_str "inf" = some ⟨4294967295⟩ := by
  refine ⟨?_, ?_, ?_, ?_, f32ToU32_negSign, rfl, rfl, f32ToU32_big,
    by decide, by decide, by decide⟩
  · intro s f h
    unfold Amount.new_from_str
    rw [h]
    rfl
  · intro s h
    unfold Amount.new_from_str
    rw [h]
    rfl
  · intro s m e h
    unfold Amount.new_from_str
    rw [h, Option.map_some']
    exact congrArg some (congrArg Amount.mk (pipeline_neg m e))
  · intro s h
    unfold Amount.new_from_str
    rw [h]
    rfl

/-- C9, witness: the saturation theorem applied at concrete parses —
`"2.5"` succeeds, `"-0.75"` saturates to 0, `"Infinity"` saturates to the
maximum, and a finite value at `2^32` casts to `u32::MAX`. -/
theorem amount_c9_witness :
    (Amount.new_from_str "2.5").isSome = true ∧
    Amount.new_from_str "-0.75" = some ⟨0⟩ ∧
    Amount.new_from_str "Infinity" = some ⟨2^32 - 1⟩ ∧
    f32ToU32 (F32.finite false (2^32) ((0:ℕ) : ℤ)) = 2^32 - 1 :=
  ⟨amount_c9_saturation.1 "2.5" (F32.finite false 10485760 (-22)) (by decide),
    amount_c9_saturation.2.2.1 "-0.75" 12582912 (-24) (by decide),
    amount_c9_saturation.2.2.2.1 "Infinity" (by decide),
    amount_c9_saturation.2.2.2.2.2.2.2.1 (2^32) 0 (by decide)⟩

/-- C10: rendering never fails: the checked division and checked remainder by
the nonzero constant 100 always return a value, so the `unwrap` calls in the
`Display` implementation are unreachable and `render` is total. -/
theorem amount_c10_render_total :
    (∀ a : Amount, checked_div a.as_int 100 = some (a.as_int / 100) ∧
      checked_rem a.as_int 100 = some (a.as_int % 100)) ∧
    (∀ a : Amount, (a.render).isSome = true) := by
  constructor
  · intro a
    unfold checked_div checked_rem
    norm_num
  · intro a
    rw [render_eq]
    rfl

